import Mathlib

set_option maxRecDepth 8000

/-!
Shallow embedding of `src/chunk.rs` of the pngme repository, together with
proofs of the specified properties of the chunk codec.

Modelling conventions:
- Rust byte buffers (`&[u8]`, `Vec<u8>`) are `List Nat`; genuine `u8`
  values are naturals below 256 and appear as explicit hypotheses where a
  property needs them.
- `u32` values are naturals with an explicit `% 2 ^ 32` at the points
  where the Rust code truncates (`as u32`) or wraps.
- Fallible operations return explicit result types.  The Rust error type
  of `Chunk::take_from` and `TryFrom` is the unit type `()`, so the error
  constructors carry `Unit`.  Unchecked slice indexing that can panic at
  runtime is modelled by a dedicated `slicePanic` outcome.
- `ChunkType` lives in `src/chunk_type.rs`, which is not among the
  provided sources; it is modelled from the spec (see its doc comment).
- `crc::crc32::checksum_ieee` and `String::from_utf8` are external library
  primitives; they are modelled from their documented behaviour, and the
  CRC model is validated against the repository test-suite vector.
-/

/-- Reflected CRC-32/IEEE polynomial `0xEDB88320`, the polynomial used by
`crc::crc32::checksum_ieee`. -/
def crcPoly : Nat := 0xEDB88320

/-- One bit-step of the reflected CRC-32 shift register. -/
def crcRound (s : Nat) : Nat := (s / 2) ^^^ (if s % 2 = 1 then crcPoly else 0)

/-- Eight register steps: the processing of one message byte after it has
been xored into the low byte of the register. -/
def crcRound8 (s : Nat) : Nat :=
  crcRound (crcRound (crcRound (crcRound (crcRound (crcRound (crcRound (crcRound s)))))))

/-- Fold one message byte into the CRC register. -/
def crcUpdate (s b : Nat) : Nat := crcRound8 (s ^^^ b)

/-- Iterated byte-steps of the CRC register applied to a register
difference: the GF(2)-linear effect that `n` further message bytes have on
an xor-difference between two register states. -/
def crcShift : Nat → Nat → Nat
  | 0, d => d
  | n + 1, d => crcShift n (crcRound8 d)

/-- Model of `crc::crc32::checksum_ieee`: CRC-32/IEEE with initial value
`0xFFFFFFFF`, reflected polynomial `0xEDB88320` and final xor
`0xFFFFFFFF`.  Validated below against the checksum value `2882656334`
asserted by the repository's own tests. -/
def checksum_ieee (l : List Nat) : Nat :=
  (l.foldl crcUpdate 0xFFFFFFFF) ^^^ 0xFFFFFFFF

/-- Rust `u32::from_be_bytes` applied to a 4-byte slice. -/
def fromBeBytes (l : List Nat) : Nat :=
  l.getD 0 0 * 2 ^ 24 + l.getD 1 0 * 2 ^ 16 + l.getD 2 0 * 2 ^ 8 + l.getD 3 0

/-- Rust `u32::to_be_bytes` (the argument is a `u32`, i.e. below `2 ^ 32`). -/
def toBeBytes (n : Nat) : List Nat :=
  [n / 2 ^ 24 % 256, n / 2 ^ 16 % 256, n / 2 ^ 8 % 256, n % 256]

/-- Rust slice expression `bytes[i..j]` (for `i ≤ j`; out-of-range parts
are simply absent, range validity is checked at each use site of the
model). -/
def byteSlice (l : List Nat) (i j : Nat) : List Nat := (l.drop i).take (j - i)

/-- Modelled from the spec: `ChunkType` of `src/chunk_type.rs`, which is
not among the provided sources.  Per §3/§4.1 it is an immutable value type
holding exactly 4 raw bytes.  Only its 4-byte-array constructor and its
`bytes()` accessor are used by `src/chunk.rs`. -/
structure ChunkType where
  b0 : Nat
  b1 : Nat
  b2 : Nat
  b3 : Nat
deriving DecidableEq

/-- `ChunkType::bytes()`: the raw 4-byte representation. -/
def ChunkType.bytes (ct : ChunkType) : List Nat := [ct.b0, ct.b1, ct.b2, ct.b3]

/-- Modelled from the spec: the `ChunkType` 4-byte-array constructor
(`TryFrom<[u8; 4]>`), which per §4.1 "always succeeds, stores the bytes
verbatim"; per §4.2 step 3 it never fails inside `Chunk::take_from`.  In
`take_from` it is only applied to slices of length exactly 4. -/
def ChunkType.fromBytes (l : List Nat) : ChunkType :=
  ⟨l.getD 0 0, l.getD 1 0, l.getD 2 0, l.getD 3 0⟩

/-- The `Chunk` struct of `src/chunk.rs` (lines 9-14). -/
structure Chunk where
  length : Nat
  chunk_type : ChunkType
  data : List Nat
  crc : Nat
deriving DecidableEq

/-- The `TakenFrom` struct of `src/chunk.rs` (lines 16-19). -/
structure TakenFrom where
  chunk : Chunk
  bytes_remaining : Nat
deriving DecidableEq

/-- Outcome of `Chunk::take_from`: success, `Err(())` — the Rust error
type is the unit type `()`, so the payload of every error is the unit
value — or a Rust panic raised by unchecked slice indexing. -/
inductive TakeResult where
  | ok : TakenFrom → TakeResult
  | err : Unit → TakeResult
  | slicePanic : TakeResult
deriving DecidableEq

/-- Outcome of `Chunk::try_from(&Vec<u8>)`, with the same conventions as
`TakeResult`. -/
inductive TryFromResult where
  | ok : Chunk → TryFromResult
  | err : Unit → TryFromResult
  | slicePanic : TryFromResult
deriving DecidableEq

/-- `Chunk::new` (lines 51-63): computes the CRC over
`chunk_type.bytes() ++ data`, stores `data.len() as u32` as the length. -/
def Chunk.new (chunk_type : ChunkType) (data : List Nat) : Chunk :=
  { length := data.length % 2 ^ 32
    chunk_type := chunk_type
    data := data
    crc := checksum_ieee (chunk_type.bytes ++ data) }

/-- `Chunk::as_bytes` (lines 42-49): big-endian length, type bytes, data,
big-endian CRC. -/
def Chunk.as_bytes (c : Chunk) : List Nat :=
  toBeBytes c.length ++ c.chunk_type.bytes ++ c.data ++ toBeBytes c.crc

/-- `Chunk::take_from` (lines 65-91), mirroring the source control flow:
- fewer than 12 input bytes → `Err(())` (line 66);
- `four_bytes_from_slice` (line 21) succeeds exactly on 4-byte slices; at
  lines 69 and 71 it always receives the 4-byte slices `bytes[0..4]` and
  `bytes[4..8]`, so it never fails there, and `ChunkType::try_from` on a
  4-byte array never fails (spec §4.1);
- the unchecked slice expressions `&bytes[8..crc_start]` (line 75) and
  `&bytes[crc_start..crc_start + 4]` (line 76) panic at runtime as soon as
  `crc_start + 4 > bytes.len()` — modelled by `slicePanic` (whenever the
  line-76 slice is in range it has length exactly 4, so
  `four_bytes_from_slice` never fails at line 76 either);
- CRC disagreement → `Err(())` (line 80);
- `bytes.len() as u32 - 4 - 4 - length as u32 - 4` (line 89) is wrapping
  `u32` arithmetic, modelled as `% 2 ^ 32`; on the success path
  `bytes.len() ≥ 12 + length` holds, so the modelled value is the natural
  difference reduced modulo `2 ^ 32`. -/
def Chunk.take_from (bytes : List Nat) : TakeResult :=
  if bytes.length < 12 then .err ()
  else
    let length := fromBeBytes (byteSlice bytes 0 4)
    let chunk_type := ChunkType.fromBytes (byteSlice bytes 4 8)
    let crc_start := 8 + length
    if bytes.length < crc_start + 4 then .slicePanic
    else
      let data := byteSlice bytes 8 crc_start
      let provided_crc := fromBeBytes (byteSlice bytes crc_start (crc_start + 4))
      let computed_crc := checksum_ieee (byteSlice bytes 4 crc_start)
      if provided_crc ≠ computed_crc then .err ()
      else .ok ⟨⟨length, chunk_type, data, computed_crc⟩,
        (bytes.length - (4 + 4 + length + 4)) % 2 ^ 32⟩

/-- `impl TryFrom<&Vec<u8>> for Chunk` (lines 94-111): delegates to
`take_from` on the whole buffer, succeeds only when no bytes remain. -/
def chunkTryFrom (bytes : List Nat) : TryFromResult :=
  match Chunk.take_from bytes with
  | .ok tf => if tf.bytes_remaining = 0 then .ok tf.chunk else .err ()
  | .err _ => .err ()
  | .slicePanic => .slicePanic

/-- UTF-8 continuation byte test (`0x80..=0xBF`). -/
def isCont (b : Nat) : Bool := decide (0x80 ≤ b) && decide (b ≤ 0xBF)

/-- Admissible second byte of a 3-byte UTF-8 sequence, given its first
byte (surrogate and overlong exclusions). -/
def utf8Second3 (b0 b1 : Nat) : Bool :=
  if b0 = 0xE0 then decide (0xA0 ≤ b1) && decide (b1 ≤ 0xBF)
  else if b0 = 0xED then decide (0x80 ≤ b1) && decide (b1 ≤ 0x9F)
  else isCont b1

/-- Admissible second byte of a 4-byte UTF-8 sequence, given its first
byte (overlong and beyond-U+10FFFF exclusions). -/
def utf8Second4 (b0 b1 : Nat) : Bool :=
  if b0 = 0xF0 then decide (0x90 ≤ b1) && decide (b1 ≤ 0xBF)
  else if b0 = 0xF4 then decide (0x80 ≤ b1) && decide (b1 ≤ 0x8F)
  else isCont b1

/-- Model of the std-library primitive `String::from_utf8`: decodes a byte
list into its list of Unicode scalar values, returning `none` exactly when
the bytes are not valid UTF-8 (RFC 3629 table, the validity notion Rust's
`String::from_utf8` checks). -/
def utf8Decode : List Nat → Option (List Nat)
  | [] => some []
  | b0 :: rest =>
    if b0 < 0x80 then
      (utf8Decode rest).map (fun cps => b0 :: cps)
    else if 0xC2 ≤ b0 ∧ b0 ≤ 0xDF then
      match rest with
      | b1 :: rest2 =>
        if isCont b1 then
          (utf8Decode rest2).map (fun cps => ((b0 - 0xC0) * 0x40 + (b1 - 0x80)) :: cps)
        else none
      | [] => none
    else if 0xE0 ≤ b0 ∧ b0 ≤ 0xEF then
      match rest with
      | b1 :: b2 :: rest3 =>
        if utf8Second3 b0 b1 && isCont b2 then
          (utf8Decode rest3).map
            (fun cps => ((b0 - 0xE0) * 0x1000 + (b1 - 0x80) * 0x40 + (b2 - 0x80)) :: cps)
        else none
      | _ => none
    else if 0xF0 ≤ b0 ∧ b0 ≤ 0xF4 then
      match rest with
      | b1 :: b2 :: b3 :: rest4 =>
        if utf8Second4 b0 b1 && isCont b2 && isCont b3 then
          (utf8Decode rest4).map
            (fun cps =>
              ((b0 - 0xF0) * 0x40000 + (b1 - 0x80) * 0x1000 + (b2 - 0x80) * 0x40 + (b3 - 0x80)) :: cps)
        else none
      | _ => none
    else none
termination_by l => l.length
decreasing_by all_goals simp <;> omega

/-- `Chunk::data_as_string` (lines 36-38): `String::from_utf8` applied to
a copy of the data; the chunk itself is unchanged (the model is pure). -/
def Chunk.data_as_string (c : Chunk) : Option (List Nat) := utf8Decode c.data

/-- `impl Display for Chunk` (lines 113-121): writes the decoded string
when `data_as_string` succeeds, otherwise returns `std::fmt::Error` and
writes nothing.  The formatter output is modelled as the written scalar
values. -/
def Chunk.displayFmt (c : Chunk) : Except Unit (List Nat) :=
  match c.data_as_string with
  | some s => .ok s
  | none => .error ()

/-- The byte string `"RuSt"`. -/
def ruStBytes : List Nat := [82, 117, 83, 116]

/-- The 42-byte test message of the repository's test suite,
`"This is where your secret message will be!"`. -/
def testMessage : List Nat :=
  [84, 104, 105, 115, 32, 105, 115, 32, 119, 104, 101, 114, 101, 32, 121, 111, 117, 114,
   32, 115, 101, 99, 114, 101, 116, 32, 109, 101, 115, 115, 97, 103, 101, 32, 119, 105,
   108, 108, 32, 98, 101, 33]

/-- Validation of the CRC model against the repository's test suite, which
asserts this exact checksum for `"RuSt" ++ message` (tests at lines
126-142 and 164-168 of `src/chunk.rs`). -/
theorem checksum_ieee_test_vector :
    checksum_ieee (ruStBytes ++ testMessage) = 2882656334 := by decide

/-- The test-suite chunk buffer parses successfully with no remainder,
reproducing `test_valid_chunk_from_bytes`. -/
theorem take_from_test_vector :
    Chunk.take_from ([0, 0, 0, 42] ++ ruStBytes ++ testMessage ++ [171, 209, 216, 78]) =
      TakeResult.ok ⟨⟨42, ⟨82, 117, 83, 116⟩, testMessage, 2882656334⟩, 0⟩ := by decide

/-! ### Supporting lemmas: xor arithmetic -/

theorem xor_div_two (a b : Nat) : (a ^^^ b) / 2 = a / 2 ^^^ b / 2 := by
  apply Nat.eq_of_testBit_eq
  intro i
  rw [← Nat.testBit_succ (a ^^^ b) i, Nat.testBit_xor, Nat.testBit_xor,
    Nat.testBit_succ a i, Nat.testBit_succ b i]

theorem xor_mod_two (a b : Nat) : (a ^^^ b) % 2 = (a % 2 + b % 2) % 2 := by
  have h := Nat.testBit_xor a b 0
  rw [Nat.testBit_zero, Nat.testBit_zero, Nat.testBit_zero] at h
  rcases Nat.mod_two_eq_zero_or_one a with ha | ha <;>
    rcases Nat.mod_two_eq_zero_or_one b with hb | hb <;>
    simp [ha, hb] at h ⊢ <;> omega

theorem xor_left_comm (a b c : Nat) : a ^^^ (b ^^^ c) = b ^^^ (a ^^^ c) := by
  rw [← Nat.xor_assoc, Nat.xor_comm a b, Nat.xor_assoc]

theorem xor_self_ne (a d : Nat) (h : d ≠ 0) : a ^^^ d ≠ a := by
  intro hEq
  apply h
  have h2 : a ^^^ (a ^^^ d) = a ^^^ a := by rw [hEq]
  rwa [← Nat.xor_assoc, Nat.xor_self, Nat.zero_xor] at h2

theorem xor_right_cancel (a b c : Nat) (h : a ^^^ c = b ^^^ c) : a = b := by
  have h2 : a ^^^ c ^^^ c = b ^^^ c ^^^ c := by rw [h]
  simpa [Nat.xor_assoc, Nat.xor_self, Nat.xor_zero] using h2

/-! ### Supporting lemmas: the CRC register -/

theorem crcRound_lt (s : Nat) (hs : s < 2 ^ 32) : crcRound s < 2 ^ 32 := by
  unfold crcRound
  have h1 : s / 2 < 2 ^ 32 := by omega
  split
  · exact Nat.xor_lt_two_pow h1 (by decide)
  · simpa using h1

theorem crcRound_xor (a b : Nat) : crcRound (a ^^^ b) = crcRound a ^^^ crcRound b := by
  unfold crcRound
  have hm := xor_mod_two a b
  rcases Nat.mod_two_eq_zero_or_one a with ha | ha <;>
    rcases Nat.mod_two_eq_zero_or_one b with hb | hb <;>
    rw [ha, hb] at hm <;>
    simp [ha, hb, hm, xor_div_two, Nat.xor_assoc, Nat.xor_comm, xor_left_comm,
      Nat.xor_cancel_left]

theorem crcRound_ne_zero (s : Nat) (hs : s < 2 ^ 32) (h : s ≠ 0) : crcRound s ≠ 0 := by
  unfold crcRound
  rcases Nat.mod_two_eq_zero_or_one s with he | ho
  · rw [if_neg (by omega)]
    simp only [Nat.xor_zero]
    omega
  · rw [if_pos ho]
    intro hz
    have heq : s / 2 = crcPoly := Nat.xor_eq_zero.mp hz
    have hlt : s / 2 < 2 ^ 31 := by omega
    rw [heq] at hlt
    exact absurd hlt (by decide)

theorem crcRound8_lt (s : Nat) (hs : s < 2 ^ 32) : crcRound8 s < 2 ^ 32 := by
  unfold crcRound8
  exact crcRound_lt _ (crcRound_lt _ (crcRound_lt _ (crcRound_lt _ (crcRound_lt _
    (crcRound_lt _ (crcRound_lt _ (crcRound_lt _ hs)))))))

theorem crcRound8_xor (a b : Nat) : crcRound8 (a ^^^ b) = crcRound8 a ^^^ crcRound8 b := by
  simp [crcRound8, crcRound_xor]

theorem crcRound8_ne_zero (s : Nat) (hs : s < 2 ^ 32) (h : s ≠ 0) : crcRound8 s ≠ 0 := by
  unfold crcRound8
  have p : ∀ t : Nat, t < 2 ^ 32 → t ≠ 0 → crcRound t < 2 ^ 32 ∧ crcRound t ≠ 0 :=
    fun t ht hn => ⟨crcRound_lt t ht, crcRound_ne_zero t ht hn⟩
  have h1 := p s hs h
  have h2 := p _ h1.1 h1.2
  have h3 := p _ h2.1 h2.2
  have h4 := p _ h3.1 h3.2
  have h5 := p _ h4.1 h4.2
  have h6 := p _ h5.1 h5.2
  have h7 := p _ h6.1 h6.2
  exact (p _ h7.1 h7.2).2

theorem crcShift_ne_zero (n : Nat) :
    ∀ d, d < 2 ^ 32 → d ≠ 0 → crcShift n d ≠ 0 := by
  induction n with
  | zero => intro d _ hd; simpa [crcShift] using hd
  | succ m ih =>
    intro d hlt hd
    have h8 : crcRound8 d < 2 ^ 32 := crcRound8_lt d hlt
    have h8n : crcRound8 d ≠ 0 := crcRound8_ne_zero d hlt hd
    simpa [crcShift] using ih (crcRound8 d) h8 h8n

theorem crcUpdate_xor_right (s x d : Nat) :
    crcUpdate s (x ^^^ d) = crcUpdate s x ^^^ crcRound8 d := by
  unfold crcUpdate
  rw [show s ^^^ (x ^^^ d) = (s ^^^ x) ^^^ d by
        rw [Nat.xor_assoc], crcRound8_xor]

theorem foldl_crcUpdate_xor (l : List Nat) :
    ∀ s d, List.foldl crcUpdate (s ^^^ d) l =
      List.foldl crcUpdate s l ^^^ crcShift l.length d := by
  induction l with
  | nil => intro s d; simp [crcShift]
  | cons b t ih =>
    intro s d
    simp only [List.foldl_cons, List.length_cons]
    have h1 : crcUpdate (s ^^^ d) b = crcUpdate s b ^^^ crcRound8 d := by
      unfold crcUpdate
      rw [show s ^^^ d ^^^ b = s ^^^ b ^^^ d by
            rw [Nat.xor_assoc, Nat.xor_comm d b, ← Nat.xor_assoc], crcRound8_xor]
    rw [h1, ih]
    rfl

theorem foldl_crcUpdate_lt (l : List Nat) :
    ∀ s, s < 2 ^ 32 → (∀ b ∈ l, b < 256) → List.foldl crcUpdate s l < 2 ^ 32 := by
  induction l with
  | nil => intro s hs _; simpa using hs
  | cons b t ih =>
    intro s hs hb
    simp only [List.foldl_cons]
    apply ih
    · unfold crcUpdate
      apply crcRound8_lt
      have hb0 : b < 2 ^ 32 := by
        have := hb b (List.mem_cons_self b t)
        omega
      exact Nat.xor_lt_two_pow hs hb0
    · intro x hx
      exact hb x (List.mem_cons_of_mem b hx)

theorem checksum_ieee_lt (l : List Nat) (hb : ∀ b ∈ l, b < 256) :
    checksum_ieee l < 2 ^ 32 := by
  unfold checksum_ieee
  exact Nat.xor_lt_two_pow (foldl_crcUpdate_lt l 0xFFFFFFFF (by decide) hb) (by decide)

/-- CRC single-bit sensitivity: xoring one bit (bit `j`, `j < 8`) into any
one byte of a message of genuine bytes changes its CRC-32 checksum. -/
theorem checksum_ieee_set_xor_ne (l : List Nat) (k j : Nat)
    (hb : ∀ b ∈ l, b < 256) (hk : k < l.length) (hj : j < 8) :
    checksum_ieee (l.set k (l.getD k 0 ^^^ 2 ^ j)) ≠ checksum_ieee l := by
  have hx : l.getD k 0 = l[k] := List.getD_eq_getElem l 0 hk
  have hdecomp : l = l.take k ++ l[k] :: l.drop (k + 1) := by
    conv_lhs => rw [← List.take_append_drop k l]
    rw [List.drop_eq_getElem_cons hk]
  have hset : l.set k (l.getD k 0 ^^^ 2 ^ j)
      = l.take k ++ (l[k] ^^^ 2 ^ j) :: l.drop (k + 1) := by
    rw [List.set_eq_take_append_cons_drop, if_pos hk, hx]
  have hpre : ∀ b ∈ l.take k, b < 256 := fun b hbm => hb b (List.mem_of_mem_take hbm)
  have hs : List.foldl crcUpdate 0xFFFFFFFF (l.take k) < 2 ^ 32 :=
    foldl_crcUpdate_lt (l.take k) 0xFFFFFFFF (by decide) hpre
  intro hEq
  unfold checksum_ieee at hEq
  have hfold := xor_right_cancel _ _ _ hEq
  rw [hset] at hfold
  conv_rhs at hfold => rw [hdecomp]
  rw [List.foldl_append, List.foldl_append, List.foldl_cons, List.foldl_cons] at hfold
  set s := List.foldl crcUpdate 0xFFFFFFFF (l.take k) with hsdef
  have hflip : crcUpdate s (l[k] ^^^ 2 ^ j) = crcUpdate s l[k] ^^^ crcRound8 (2 ^ j) :=
    crcUpdate_xor_right s l[k] (2 ^ j)
  rw [hflip, foldl_crcUpdate_xor] at hfold
  have hd0 : crcRound8 (2 ^ j) ≠ 0 := by
    apply crcRound8_ne_zero
    · have : (2 : Nat) ^ j ≤ 2 ^ 8 := Nat.pow_le_pow_right (by omega) (by omega)
      have : (2 : Nat) ^ 8 < 2 ^ 32 := by decide
      omega
    · exact Nat.pos_iff_ne_zero.mp (Nat.pos_pow_of_pos j (by omega))
  have hd0lt : crcRound8 (2 ^ j) < 2 ^ 32 := by
    apply crcRound8_lt
    have : (2 : Nat) ^ j ≤ 2 ^ 8 := Nat.pow_le_pow_right (by omega) (by omega)
    omega
  have hshift : crcShift (l.drop (k + 1)).length (crcRound8 (2 ^ j)) ≠ 0 :=
    crcShift_ne_zero _ _ hd0lt hd0
  exact xor_self_ne _ _ hshift hfold

/-! ### Supporting lemmas: serialization -/

theorem length_toBeBytes (n : Nat) : (toBeBytes n).length = 4 := rfl

theorem toBeBytes_lt (n : Nat) : ∀ b ∈ toBeBytes n, b < 256 := by
  intro b hb
  simp only [toBeBytes, List.mem_cons, List.not_mem_nil, or_false] at hb
  rcases hb with h | h | h | h <;> omega

theorem fromBe_toBe (n : Nat) (h : n < 2 ^ 32) : fromBeBytes (toBeBytes n) = n := by
  simp only [fromBeBytes, toBeBytes, List.getD_cons_zero, List.getD_cons_succ]
  omega

theorem bytes_fromBytes (l : List Nat) (h : l.length = 4) :
    (ChunkType.fromBytes l).bytes = l := by
  match l, h with
  | [a, b, c, d], _ => rfl

theorem fromBytes_bytes (ct : ChunkType) : ChunkType.fromBytes ct.bytes = ct := by
  cases ct
  rfl

/-- Master parse lemma: `Chunk::take_from` applied to a structurally
well-formed serialization — 4-byte big-endian length field declaring
`len`, 4-byte type field `tb`, `len` data bytes `d`, 4-byte big-endian CRC
field holding `K`, arbitrary trailing bytes `extra`. -/
theorem take_from_concat (len : Nat) (tb d extra : List Nat) (K : Nat)
    (htb : tb.length = 4) (hd : d.length = len) (hlen : len < 2 ^ 32)
    (hK : K < 2 ^ 32) :
    Chunk.take_from (toBeBytes len ++ tb ++ d ++ toBeBytes K ++ extra) =
      if K ≠ checksum_ieee (tb ++ d) then .err ()
      else .ok ⟨⟨len, ChunkType.fromBytes tb, d, checksum_ieee (tb ++ d)⟩,
        extra.length % 2 ^ 32⟩ := by
  set B := toBeBytes len ++ tb ++ d ++ toBeBytes K ++ extra with hB
  have hBassoc : B = toBeBytes len ++ (tb ++ (d ++ (toBeBytes K ++ extra))) := by
    simp [hB, List.append_assoc]
  have hBlen : B.length = 12 + len + extra.length := by
    simp [hBassoc, length_toBeBytes, htb, hd]
    omega
  have hdrop4 : B.drop 4 = tb ++ (d ++ (toBeBytes K ++ extra)) := by
    rw [hBassoc]
    exact List.drop_left' (length_toBeBytes len)
  have h04 : byteSlice B 0 4 = toBeBytes len := by
    simp only [byteSlice, List.drop_zero, Nat.sub_zero, hBassoc]
    exact List.take_left' (length_toBeBytes len)
  have h48 : byteSlice B 4 8 = tb := by
    simp only [byteSlice, hdrop4]
    exact List.take_left' htb
  have hdrop8 : B.drop 8 = d ++ (toBeBytes K ++ extra) := by
    have : B.drop 8 = (B.drop 4).drop 4 := by
      rw [List.drop_drop]
    rw [this, hdrop4]
    exact List.drop_left' htb
  have h8c : byteSlice B 8 (8 + len) = d := by
    simp only [byteSlice, hdrop8, Nat.add_sub_cancel_left]
    exact List.take_left' hd
  have hdropc : B.drop (8 + len) = toBeBytes K ++ extra := by
    have : B.drop (8 + len) = (B.drop 8).drop len := by
      rw [List.drop_drop]
    rw [this, hdrop8]
    exact List.drop_left' hd
  have hcrc : byteSlice B (8 + len) (8 + len + 4) = toBeBytes K := by
    simp only [byteSlice, hdropc, Nat.add_sub_cancel_left]
    exact List.take_left' (length_toBeBytes K)
  have h4c : byteSlice B 4 (8 + len) = tb ++ d := by
    simp only [byteSlice, hdrop4]
    have h84 : 8 + len - 4 = tb.length + len := by omega
    rw [h84, List.take_append]
    rw [List.take_left' hd]
  have hrem : B.length - (4 + 4 + len + 4) = extra.length := by omega
  rw [Chunk.take_from]
  simp only [h04, h48, h4c, h8c, hcrc, fromBe_toBe len hlen, fromBe_toBe K hK]
  rw [if_neg (by omega : ¬ B.length < 12), if_neg (by omega : ¬ B.length < 8 + len + 4)]
  rw [hrem]

theorem byteSlice_length (l : List Nat) (i j : Nat) :
    (byteSlice l i j).length = min (j - i) (l.length - i) := by
  simp [byteSlice, List.length_take, List.length_drop]

theorem byteSlice_join (l : List Nat) (i j k : Nat) (hij : i ≤ j) (hjk : j ≤ k) :
    byteSlice l i j ++ byteSlice l j k = byteSlice l i k := by
  unfold byteSlice
  have hdrop : l.drop j = (l.drop i).drop (j - i) := by
    rw [List.drop_drop]
    congr 1
    omega
  rw [hdrop, ← List.take_add]
  congr 1
  omega

/-- Inversion of a successful `take_from`: the branch conditions that were
passed and the exact field values of the result. -/
theorem take_from_ok_inversion (bytes : List Nat) (tf : TakenFrom)
    (h : Chunk.take_from bytes = TakeResult.ok tf) :
    12 ≤ bytes.length ∧
    8 + tf.chunk.length + 4 ≤ bytes.length ∧
    tf.chunk.length = fromBeBytes (byteSlice bytes 0 4) ∧
    tf.chunk.chunk_type = ChunkType.fromBytes (byteSlice bytes 4 8) ∧
    tf.chunk.data = byteSlice bytes 8 (8 + tf.chunk.length) ∧
    tf.chunk.crc = checksum_ieee (byteSlice bytes 4 (8 + tf.chunk.length)) ∧
    fromBeBytes (byteSlice bytes (8 + tf.chunk.length) (8 + tf.chunk.length + 4)) =
      tf.chunk.crc ∧
    tf.bytes_remaining = (bytes.length - (4 + 4 + tf.chunk.length + 4)) % 2 ^ 32 := by
  rw [Chunk.take_from] at h
  split at h
  · exact absurd h (by simp)
  · simp only [] at h
    split at h
    · exact absurd h (by simp)
    · split at h
      · exact absurd h (by simp)
      · rename_i h12 hfit hcrc
        obtain rfl : tf = _ := (TakeResult.ok.inj h).symm
        push_neg at hcrc
        refine ⟨by omega, ?_, rfl, rfl, rfl, rfl, hcrc, rfl⟩
        show 8 + fromBeBytes (byteSlice bytes 0 4) + 4 ≤ bytes.length
        omega

/-! ### Claim theorems -/

/-- C1: Round-trip — for every chunk type and every data byte sequence
whose length fits in a `u32`, `Chunk::take_from` applied to
`Chunk::new(chunk_type, data).as_bytes()` succeeds and yields a chunk
whose `length`, `chunk_type` bytes, `data` and `crc` are identical to
those of the original chunk (the parsed chunk equals it as a value), and
reports `bytes_remaining = 0`. -/
theorem take_from_new_as_bytes_roundtrip (ct : ChunkType) (data : List Nat)
    (hct : ∀ b ∈ ct.bytes, b < 256) (hdata : ∀ b ∈ data, b < 256)
    (hlen : data.length < 2 ^ 32) :
    Chunk.take_from (Chunk.new ct data).as_bytes =
      TakeResult.ok ⟨Chunk.new ct data, 0⟩ := by
  have hKbytes : ∀ b ∈ ct.bytes ++ data, b < 256 := by
    intro b hb
    rcases List.mem_append.mp hb with h | h
    · exact hct b h
    · exact hdata b h
  have hK : checksum_ieee (ct.bytes ++ data) < 2 ^ 32 := checksum_ieee_lt _ hKbytes
  have hmod : data.length % 2 ^ 32 = data.length := Nat.mod_eq_of_lt hlen
  have hspell : (Chunk.new ct data).as_bytes =
      toBeBytes data.length ++ ct.bytes ++ data ++
        toBeBytes (checksum_ieee (ct.bytes ++ data)) ++ [] := by
    simp only [Chunk.as_bytes, Chunk.new, List.append_nil]
    rw [hmod]
  rw [hspell, take_from_concat data.length ct.bytes data [] _ rfl rfl hlen hK]
  rw [if_neg (by simp)]
  simp only [Chunk.new, fromBytes_bytes, List.length_nil, Nat.zero_mod]
  rw [hmod]

/-- Witness for the round-trip theorem at a concrete chunk type and data. -/
theorem take_from_new_as_bytes_roundtrip_witness :
    Chunk.take_from (Chunk.new ⟨82, 117, 83, 116⟩ [1, 2, 3]).as_bytes =
      TakeResult.ok ⟨Chunk.new ⟨82, 117, 83, 116⟩ [1, 2, 3], 0⟩ :=
  take_from_new_as_bytes_roundtrip ⟨82, 117, 83, 116⟩ [1, 2, 3]
    (by decide) (by decide) (by decide)

/-- C7: every input slice shorter than 12 bytes makes `take_from` fail
with the error result (the failure mode the spec names `TooShort`; the
Rust error value itself is `Err(())`), and no chunk is produced. -/
theorem take_from_too_short (bytes : List Nat) (h : bytes.length < 12) :
    Chunk.take_from bytes = TakeResult.err () := by
  rw [Chunk.take_from, if_pos h]

/-- Witness for the too-short theorem on a 3-byte input. -/
theorem take_from_too_short_witness :
    Chunk.take_from [0, 1, 2] = TakeResult.err () :=
  take_from_too_short [0, 1, 2] (by decide)

/-- Any input of at least 12 bytes whose declared data length makes the
CRC field run past the end of the slice drives `take_from` into the
unchecked slice indexing of lines 75-76, which panics — the function does
not return a `TruncatedData`-style error result for such inputs. -/
theorem take_from_truncated_panics (bytes : List Nat)
    (h12 : ¬ bytes.length < 12)
    (hover : bytes.length < 8 + fromBeBytes (byteSlice bytes 0 4) + 4) :
    Chunk.take_from bytes = TakeResult.slicePanic := by
  rw [Chunk.take_from, if_neg h12]
  simp only []
  rw [if_pos hover]

/-- C2 (failing evaluation): a 12-byte input whose big-endian length field
declares 1 data byte, so that the CRC field index `8 + 1 + 4 = 13` runs
past the end of the 12-byte slice.  `take_from` panics on the slice
expression `&bytes[9..13]` instead of returning a `TruncatedData` error:
the operation is not total on byte slices. -/
theorem take_from_truncated_declared_length_panics :
    Chunk.take_from [0, 0, 0, 1, 82, 117, 83, 116, 0, 0, 0, 0] =
      TakeResult.slicePanic := by decide

theorem chunkTryFrom_ok_case (bytes : List Nat) (tf : TakenFrom)
    (h : Chunk.take_from bytes = TakeResult.ok tf) :
    chunkTryFrom bytes =
      if tf.bytes_remaining = 0 then TryFromResult.ok tf.chunk
      else TryFromResult.err () := by
  unfold chunkTryFrom
  rw [h]

theorem chunkTryFrom_err_case (bytes : List Nat) (e : Unit)
    (h : Chunk.take_from bytes = TakeResult.err e) :
    chunkTryFrom bytes = TryFromResult.err () := by
  unfold chunkTryFrom
  rw [h]

theorem chunkTryFrom_panic_case (bytes : List Nat)
    (h : Chunk.take_from bytes = TakeResult.slicePanic) :
    chunkTryFrom bytes = TryFromResult.slicePanic := by
  unfold chunkTryFrom
  rw [h]

/-- C9: on every successful parse of an input of `u32`-representable size,
`take_from` reports `bytes_remaining` equal to the number of input bytes
beyond the parsed chunk's serialized region,
`input.len() - (4 + 4 + length + 4)`. -/
theorem take_from_bytes_remaining_count (bytes : List Nat) (tf : TakenFrom)
    (hok : Chunk.take_from bytes = TakeResult.ok tf)
    (hsz : bytes.length < 2 ^ 32) :
    tf.bytes_remaining = bytes.length - (4 + 4 + tf.chunk.length + 4) := by
  obtain ⟨h12, hfit, hL, -, -, -, -, hrem⟩ := take_from_ok_inversion bytes tf hok
  rw [hrem]
  exact Nat.mod_eq_of_lt (by omega)

/-- Witness for the remainder count: a valid 12-byte chunk followed by one
trailing byte yields `bytes_remaining = 13 - 12 = 1`. -/
theorem take_from_bytes_remaining_count_witness :
    (⟨⟨0, ⟨82, 117, 83, 116⟩, [], 3565422908⟩, 1⟩ : TakenFrom).bytes_remaining =
      ([0, 0, 0, 0] ++ ruStBytes ++ [212, 132, 9, 60] ++ [7]).length -
        (4 + 4 + (⟨⟨0, ⟨82, 117, 83, 116⟩, [], 3565422908⟩, 1⟩ : TakenFrom).chunk.length + 4) :=
  take_from_bytes_remaining_count _ _ (by decide) (by decide)

/-- C4: invariant — every chunk constructed by `Chunk::new` (with data
length representable in `u32`) or parsed by `take_from` / `try_from`
satisfies `crc = checksum_ieee(chunk_type.bytes ++ data)` and
`length = data.len()`. -/
theorem chunk_invariant_new_and_parsed :
    (∀ (ct : ChunkType) (data : List Nat), data.length < 2 ^ 32 →
      (Chunk.new ct data).crc =
        checksum_ieee ((Chunk.new ct data).chunk_type.bytes ++ (Chunk.new ct data).data) ∧
      (Chunk.new ct data).length = (Chunk.new ct data).data.length) ∧
    (∀ (bytes : List Nat) (tf : TakenFrom), Chunk.take_from bytes = TakeResult.ok tf →
      tf.chunk.crc = checksum_ieee (tf.chunk.chunk_type.bytes ++ tf.chunk.data) ∧
      tf.chunk.length = tf.chunk.data.length) ∧
    (∀ (bytes : List Nat) (c : Chunk), chunkTryFrom bytes = TryFromResult.ok c →
      c.crc = checksum_ieee (c.chunk_type.bytes ++ c.data) ∧
      c.length = c.data.length) := by
  have hparse : ∀ (bytes : List Nat) (tf : TakenFrom),
      Chunk.take_from bytes = TakeResult.ok tf →
      tf.chunk.crc = checksum_ieee (tf.chunk.chunk_type.bytes ++ tf.chunk.data) ∧
      tf.chunk.length = tf.chunk.data.length := by
    intro bytes tf hok
    obtain ⟨h12, hfit, hL, hct, hdata, hcrc, -, -⟩ := take_from_ok_inversion bytes tf hok
    constructor
    · rw [hcrc, hct, hdata]
      have h48len : (byteSlice bytes 4 8).length = 4 := by
        rw [byteSlice_length]
        omega
      rw [bytes_fromBytes _ h48len,
        byteSlice_join bytes 4 8 (8 + tf.chunk.length) (by omega) (by omega)]
    · rw [hdata, byteSlice_length]
      omega
  refine ⟨?_, hparse, ?_⟩
  · intro ct data hlen
    refine ⟨rfl, ?_⟩
    show data.length % 2 ^ 32 = data.length
    exact Nat.mod_eq_of_lt hlen
  · intro bytes c htry
    cases hres : Chunk.take_from bytes with
    | ok tf =>
      rw [chunkTryFrom_ok_case bytes tf hres] at htry
      split at htry
      · obtain rfl : c = tf.chunk := (TryFromResult.ok.inj htry).symm
        exact hparse bytes tf hres
      · exact absurd htry (by simp)
    | err e =>
      rw [chunkTryFrom_err_case bytes e hres] at htry
      exact absurd htry (by simp)
    | slicePanic =>
      rw [chunkTryFrom_panic_case bytes hres] at htry
      exact absurd htry (by simp)

/-- Witness for the invariant at a concrete freshly constructed chunk. -/
theorem chunk_invariant_new_and_parsed_witness :
    (Chunk.new ⟨82, 117, 83, 116⟩ [9]).crc =
      checksum_ieee ((Chunk.new ⟨82, 117, 83, 116⟩ [9]).chunk_type.bytes ++
        (Chunk.new ⟨82, 117, 83, 116⟩ [9]).data) ∧
    (Chunk.new ⟨82, 117, 83, 116⟩ [9]).length =
      (Chunk.new ⟨82, 117, 83, 116⟩ [9]).data.length :=
  chunk_invariant_new_and_parsed.1 ⟨82, 117, 83, 116⟩ [9] (by decide)

/-- C5: `try_from` on a full byte vector succeeds if and only if
`take_from` succeeds on it with `bytes_remaining = 0`, and then returns
the very same chunk; when `take_from` succeeds but leaves a nonzero
remainder, `try_from` fails with the error result (the failure mode the
spec names `TrailingData`). -/
theorem chunkTryFrom_take_from_agreement (bytes : List Nat) :
    (∀ c : Chunk, chunkTryFrom bytes = TryFromResult.ok c ↔
      Chunk.take_from bytes = TakeResult.ok ⟨c, 0⟩) ∧
    (∀ tf : TakenFrom, Chunk.take_from bytes = TakeResult.ok tf →
      tf.bytes_remaining ≠ 0 → chunkTryFrom bytes = TryFromResult.err ()) := by
  constructor
  · intro c
    constructor
    · intro h
      cases hres : Chunk.take_from bytes with
      | ok tf =>
        obtain ⟨ch, rem⟩ := tf
        rw [chunkTryFrom_ok_case bytes ⟨ch, rem⟩ hres] at h
        split at h
        · rename_i hr
          have hr0 : rem = 0 := hr
          obtain rfl : c = ch := (TryFromResult.ok.inj h).symm
          rw [hr0]
        · exact absurd h (by simp)
      | err e =>
        rw [chunkTryFrom_err_case bytes e hres] at h
        exact absurd h (by simp)
      | slicePanic =>
        rw [chunkTryFrom_panic_case bytes hres] at h
        exact absurd h (by simp)
    · intro h
      rw [chunkTryFrom_ok_case bytes ⟨c, 0⟩ h]
      rfl
  · intro tf hok hr
    rw [chunkTryFrom_ok_case bytes tf hok, if_neg hr]

/-- Witness: on a valid chunk followed by one trailing byte, `take_from`
succeeds with remainder 1, so `try_from` fails. -/
theorem chunkTryFrom_take_from_agreement_witness :
    chunkTryFrom ([0, 0, 0, 0] ++ ruStBytes ++ [212, 132, 9, 60] ++ [7]) =
      TryFromResult.err () :=
  (chunkTryFrom_take_from_agreement _).2 ⟨⟨0, ⟨82, 117, 83, 116⟩, [], 3565422908⟩, 1⟩
    (by decide) (by decide)

/-- C3: on any input slice large enough for the declared chunk (at least
`12 + length + 4` bytes), `take_from` fails if and only if the provided
big-endian CRC field disagrees with the CRC-32/IEEE checksum recomputed
over bytes `[4 .. 8+length)`; it never panics there, and on failure the
error result (the failure mode the spec names `CrcMismatch`) carries no
chunk. -/
theorem take_from_fails_iff_crc_mismatch (bytes : List Nat)
    (hsz : 12 + fromBeBytes (byteSlice bytes 0 4) + 4 ≤ bytes.length) :
    (Chunk.take_from bytes = TakeResult.err () ↔
      fromBeBytes (byteSlice bytes (8 + fromBeBytes (byteSlice bytes 0 4))
          (8 + fromBeBytes (byteSlice bytes 0 4) + 4)) ≠
        checksum_ieee (byteSlice bytes 4 (8 + fromBeBytes (byteSlice bytes 0 4)))) ∧
    Chunk.take_from bytes ≠ TakeResult.slicePanic := by
  set L := fromBeBytes (byteSlice bytes 0 4) with hL
  have hunfold : Chunk.take_from bytes =
      if fromBeBytes (byteSlice bytes (8 + L) (8 + L + 4)) ≠
          checksum_ieee (byteSlice bytes 4 (8 + L)) then TakeResult.err ()
      else TakeResult.ok ⟨⟨L, ChunkType.fromBytes (byteSlice bytes 4 8),
          byteSlice bytes 8 (8 + L), checksum_ieee (byteSlice bytes 4 (8 + L))⟩,
        (bytes.length - (4 + 4 + L + 4)) % 2 ^ 32⟩ := by
    rw [Chunk.take_from]
    simp only []
    rw [← hL]
    rw [if_neg (by omega : ¬ bytes.length < 12),
      if_neg (by omega : ¬ bytes.length < 8 + L + 4)]
  rw [hunfold]
  by_cases hne : fromBeBytes (byteSlice bytes (8 + L) (8 + L + 4)) ≠
      checksum_ieee (byteSlice bytes 4 (8 + L))
  · rw [if_pos hne]
    exact ⟨⟨fun _ => hne, fun _ => rfl⟩, by simp⟩
  · rw [if_neg hne]
    refine ⟨⟨fun hc => absurd hc (by simp), fun hc => absurd hc hne⟩, by simp⟩

/-- Witness: a 16-byte input (12-byte valid chunk plus 4 trailing bytes)
is large enough, parses without panic, and does not fail because its CRC
field agrees. -/
theorem take_from_fails_iff_crc_mismatch_witness :
    (Chunk.take_from ([0, 0, 0, 0] ++ ruStBytes ++ [212, 132, 9, 60] ++ [9, 9, 9, 9]) =
        TakeResult.err () ↔
      fromBeBytes (byteSlice ([0, 0, 0, 0] ++ ruStBytes ++ [212, 132, 9, 60] ++ [9, 9, 9, 9])
          (8 + fromBeBytes (byteSlice ([0, 0, 0, 0] ++ ruStBytes ++ [212, 132, 9, 60] ++ [9, 9, 9, 9]) 0 4))
          (8 + fromBeBytes (byteSlice ([0, 0, 0, 0] ++ ruStBytes ++ [212, 132, 9, 60] ++ [9, 9, 9, 9]) 0 4) + 4)) ≠
        checksum_ieee (byteSlice ([0, 0, 0, 0] ++ ruStBytes ++ [212, 132, 9, 60] ++ [9, 9, 9, 9])
          4 (8 + fromBeBytes (byteSlice ([0, 0, 0, 0] ++ ruStBytes ++ [212, 132, 9, 60] ++ [9, 9, 9, 9]) 0 4)))) ∧
    Chunk.take_from ([0, 0, 0, 0] ++ ruStBytes ++ [212, 132, 9, 60] ++ [9, 9, 9, 9]) ≠
      TakeResult.slicePanic :=
  take_from_fails_iff_crc_mismatch
    ([0, 0, 0, 0] ++ ruStBytes ++ [212, 132, 9, 60] ++ [9, 9, 9, 9]) (by decide)

/-- C6 (counterexample): two distinct failure causes — an input shorter
than 12 bytes (the spec's `TooShort`) and a structurally complete input
whose CRC field disagrees (the spec's `CrcMismatch`) — produce the very
same error value `Err(())`, so the error values returned for distinct
failure causes are not pairwise distinct. -/
theorem take_from_error_values_not_distinct :
    Chunk.take_from [] = TakeResult.err () ∧
    Chunk.take_from ([0, 0, 0, 0] ++ ruStBytes ++ [0, 0, 0, 0]) = TakeResult.err () ∧
    Chunk.take_from [] = Chunk.take_from ([0, 0, 0, 0] ++ ruStBytes ++ [0, 0, 0, 0]) := by
  decide

/-- C6 (amended): whatever the failure cause, `take_from` returns one and
the same error result — the Rust error type is the unit type `()`, so a
caller cannot discriminate `CrcMismatch` from `TooShort` from
`TrailingData` by inspecting the returned error value. -/
theorem take_from_errors_indistinguishable (b1 b2 : List Nat) (e1 e2 : Unit)
    (h1 : Chunk.take_from b1 = TakeResult.err e1)
    (h2 : Chunk.take_from b2 = TakeResult.err e2) :
    Chunk.take_from b1 = Chunk.take_from b2 := by
  rw [h1, h2]

/-- Witness: the too-short error result coincides with the CRC-mismatch
error result. -/
theorem take_from_errors_indistinguishable_witness :
    Chunk.take_from [] = Chunk.take_from ([0, 0, 0, 0] ++ ruStBytes ++ [0, 0, 0, 0]) :=
  take_from_errors_indistinguishable [] ([0, 0, 0, 0] ++ ruStBytes ++ [0, 0, 0, 0]) () ()
    (by decide) (by decide)

/-- C10: the `Display` implementation writes exactly the UTF-8 decoding of
the chunk's `data` when the data is valid UTF-8, and returns the
formatting error — with no partial output of any other field — when it is
not, mirroring `data_as_string`, which succeeds exactly on valid-UTF-8
data (both are pure: the chunk is unchanged). -/
theorem displayFmt_mirrors_data_as_string (c : Chunk) :
    (∀ s, c.displayFmt = Except.ok s ↔ utf8Decode c.data = some s) ∧
    (c.displayFmt = Except.error () ↔ utf8Decode c.data = none) ∧
    (∀ s, c.data_as_string = some s ↔ utf8Decode c.data = some s) := by
  unfold Chunk.displayFmt Chunk.data_as_string
  cases h : utf8Decode c.data <;> simp

/-- C8: CRC sensitivity — for every serialized chunk, flipping any single
bit (bit `j` of the byte at offset `i`) in the type region
(`4 ≤ i < 8`) or the data region (`8 ≤ i < 8 + len`) of the `as_bytes`
output and then parsing with `take_from` causes the CRC-mismatch error. -/
theorem take_from_crc_bit_flip (ct : ChunkType) (data : List Nat)
    (hct : ∀ b ∈ ct.bytes, b < 256) (hdata : ∀ b ∈ data, b < 256)
    (hlen : data.length < 2 ^ 32) (i j : Nat) (hi4 : 4 ≤ i)
    (hi : i < 8 + data.length) (hj : j < 8) :
    Chunk.take_from ((Chunk.new ct data).as_bytes.set i
      ((Chunk.new ct data).as_bytes.getD i 0 ^^^ 2 ^ j)) = TakeResult.err () := by
  have hmod : data.length % 2 ^ 32 = data.length := Nat.mod_eq_of_lt hlen
  have hb : (Chunk.new ct data).as_bytes =
      toBeBytes data.length ++
        ((ct.bytes ++ data) ++ toBeBytes (checksum_ieee (ct.bytes ++ data))) := by
    simp only [Chunk.as_bytes, Chunk.new]
    rw [hmod]
    simp [List.append_assoc]
  set mid := ct.bytes ++ data with hmid
  have hmidlen : mid.length = 4 + data.length := by
    simp [hmid, ChunkType.bytes]
    omega
  have hmidbytes : ∀ b ∈ mid, b < 256 := by
    intro b hbm
    rcases List.mem_append.mp hbm with h | h
    · exact hct b h
    · exact hdata b h
  set K := checksum_ieee mid with hK
  have hKlt : K < 2 ^ 32 := by
    rw [hK]
    exact checksum_ieee_lt _ hmidbytes
  have hgetD : (Chunk.new ct data).as_bytes.getD i 0 = mid.getD (i - 4) 0 := by
    rw [hb, List.getD_append_right _ _ _ _ (by rw [length_toBeBytes]; omega),
      length_toBeBytes, List.getD_append _ _ _ _ (by omega)]
  have hset : (Chunk.new ct data).as_bytes.set i (mid.getD (i - 4) 0 ^^^ 2 ^ j) =
      toBeBytes data.length ++
        (mid.set (i - 4) (mid.getD (i - 4) 0 ^^^ 2 ^ j) ++ toBeBytes K) := by
    rw [hb, List.set_append_right _ _ (by rw [length_toBeBytes]; omega),
      length_toBeBytes, List.set_append_left _ _ (by omega)]
  rw [hgetD, hset]
  set mid' := mid.set (i - 4) (mid.getD (i - 4) 0 ^^^ 2 ^ j) with hmid'
  have hmid'len : mid'.length = 4 + data.length := by
    rw [hmid', List.length_set, hmidlen]
  have htb : (mid'.take 4).length = 4 := by
    rw [List.length_take]
    omega
  have hd : (mid'.drop 4).length = data.length := by
    rw [List.length_drop]
    omega
  have hshape : toBeBytes data.length ++ (mid' ++ toBeBytes K) =
      toBeBytes data.length ++ mid'.take 4 ++ mid'.drop 4 ++ toBeBytes K ++ [] := by
    conv_lhs => rw [← List.take_append_drop 4 mid']
    simp [List.append_assoc]
  rw [hshape, take_from_concat data.length (mid'.take 4) (mid'.drop 4) [] K htb hd hlen hKlt]
  have hne : K ≠ checksum_ieee (mid'.take 4 ++ mid'.drop 4) := by
    rw [List.take_append_drop, hK, hmid']
    exact Ne.symm (checksum_ieee_set_xor_ne mid (i - 4) j hmidbytes (by omega) hj)
  rw [if_pos hne]

/-- Witness: flipping the lowest bit of the first type byte of a concrete
serialized chunk makes the parse fail. -/
theorem take_from_crc_bit_flip_witness :
    Chunk.take_from ((Chunk.new ⟨82, 117, 83, 116⟩ [5]).as_bytes.set 4
      ((Chunk.new ⟨82, 117, 83, 116⟩ [5]).as_bytes.getD 4 0 ^^^ 2 ^ 0)) =
      TakeResult.err () :=
  take_from_crc_bit_flip ⟨82, 117, 83, 116⟩ [5] (by decide) (by decide) (by decide)
    4 0 (by decide) (by decide) (by decide)

/-- C9 (counterexample): `bytes_remaining` is computed in `u32` arithmetic
(`bytes.len() as u32 - 4 - 4 - length as u32 - 4`, line 89).  On a valid
12-byte chunk followed by `2 ^ 32` trailing bytes the parse succeeds, the
truncation `bytes.len() as u32` makes the reported remainder `0`, while
the count of input bytes beyond the chunk's serialized region is
`2 ^ 32 ≠ 0`.  (No `u32` underflow occurs on this input, so the value is
the same under both debug and release overflow semantics.) -/
theorem take_from_bytes_remaining_cex :
    Chunk.take_from ([0, 0, 0, 0] ++ ruStBytes ++ [212, 132, 9, 60] ++
        List.replicate (2 ^ 32) 0) =
      TakeResult.ok ⟨⟨0, ⟨82, 117, 83, 116⟩, [], 3565422908⟩, 0⟩ ∧
    (0 : Nat) ≠ ([0, 0, 0, 0] ++ ruStBytes ++ [212, 132, 9, 60] ++
        List.replicate (2 ^ 32) 0).length - (4 + 4 + 0 + 4) := by
  constructor
  · have h := take_from_concat 0 ruStBytes [] (List.replicate (2 ^ 32) 0) 3565422908
      rfl rfl (by decide) (by decide)
    rw [if_neg (by decide)] at h
    have h0 : toBeBytes 0 = [0, 0, 0, 0] := by decide
    have h1 : toBeBytes 3565422908 = [212, 132, 9, 60] := by decide
    have hchunk : ChunkType.fromBytes ruStBytes = (⟨82, 117, 83, 116⟩ : ChunkType) := by
      decide
    have hcrc : checksum_ieee (ruStBytes ++ []) = 3565422908 := by decide
    rw [h0, h1, List.append_nil, hchunk, hcrc, List.length_replicate, Nat.mod_self] at h
    exact h
  · have hlen : ([0, 0, 0, 0] ++ ruStBytes ++ [212, 132, 9, 60] ++
        List.replicate (2 ^ 32) 0).length = 12 + 2 ^ 32 := by
      rw [List.length_append, List.length_append, List.length_append,
        List.length_replicate]
      norm_num [ruStBytes]
    rw [hlen]
    have hpow : (2 : Nat) ^ 32 = 4294967296 := by norm_num
    rw [hpow]
    omega
